import Mathlib

/-!
Verification of the Azure File Inventory Scanner core against its design
specification.

The development shallowly embeds the Python sources of the repository:

* `shared/models.py` / `activity_scan_directory/__init__.py` — the pure
  helpers `get_file_category`, `get_age_bucket`, `get_size_bucket`.
* `activity_scan_directory/__init__.py` — the directory-scan activity
  (`main`): per-entry processing, the hash policy and the two-level
  error handling (per-file vs directory-level).
* `orchestrator_file_share/__init__.py` — the per-share wave scheduler:
  BFS frontier, visited set, batching of file records and delivery calls.

Python strings are modeled as `List Char` (a Python `str` is a sequence
of characters); `str.lower()` is `List.map Char.toLower`.  Machine I/O is
modeled as data: the listing of a directory, the outcome of a property
fetch, of a hash computation and of a batch delivery are inputs to the
embedded functions (`Except`/`Bool` values), exactly at the points where
the Python code performs the corresponding external call.
-/

namespace AzureScanner

/-! ### Python strings -/

/-- A Python string: a sequence of characters. -/
abbrev PyStr := List Char

/-- Python `str.lower()` (ASCII case folding, as `Char.toLower`). -/
def strLower (s : PyStr) : PyStr := s.map Char.toLower

/-- `Char.toLower` maps the upper-case range into the lower-case range,
so the result is never an upper-case ASCII letter. -/
theorem char_toNat_toLower_not_upper (c : Char) :
    ¬ (65 ≤ c.toLower.toNat ∧ c.toLower.toNat ≤ 90) := by
  by_cases h : c.toNat ≥ 65 ∧ c.toNat ≤ 90
  · have hv : Nat.isValidChar (c.toNat + 32) := by
      left
      have : c.toNat ≤ 90 := h.2
      omega
    have hv' : (c.val.toBitVec.toNat + 32).isValidChar := hv
    simp only [Char.toLower, h, if_true]
    simp [Char.ofNat, hv', Char.ofNatAux, Char.toNat, UInt32.toNat]
    have h1 : 65 ≤ c.val.toBitVec.toNat := h.1
    have h2 : c.val.toBitVec.toNat ≤ 90 := h.2
    omega
  · have hfix : c.toLower = c := by
      simp only [Char.toLower, h, if_false]
    rw [hfix]
    exact h

theorem char_toLower_idem (c : Char) : c.toLower.toLower = c.toLower := by
  have h := char_toNat_toLower_not_upper c
  conv_lhs => rw [Char.toLower]
  simp only [h, if_false]

theorem strLower_idem (s : PyStr) : strLower (strLower s) = strLower s := by
  induction s with
  | nil => rfl
  | cons c cs ih =>
      simp only [strLower, List.map_cons] at *
      rw [char_toLower_idem]
      exact congrArg _ (by simpa [strLower] using ih)

/-! ### `shared/models.py` — `get_file_category` and the extension tables -/

def document_exts : List PyStr :=
  [".doc".data, ".docx".data, ".pdf".data, ".txt".data, ".rtf".data,
   ".odt".data, ".xls".data, ".xlsx".data, ".ppt".data, ".pptx".data, ".csv".data]

def image_exts : List PyStr :=
  [".jpg".data, ".jpeg".data, ".png".data, ".gif".data, ".bmp".data,
   ".tiff".data, ".svg".data, ".ico".data, ".webp".data, ".raw".data]

def video_exts : List PyStr :=
  [".mp4".data, ".avi".data, ".mkv".data, ".mov".data, ".wmv".data,
   ".flv".data, ".webm".data, ".m4v".data]

def audio_exts : List PyStr :=
  [".mp3".data, ".wav".data, ".flac".data, ".aac".data, ".ogg".data,
   ".wma".data, ".m4a".data]

def archive_exts : List PyStr :=
  [".zip".data, ".rar".data, ".7z".data, ".tar".data, ".gz".data,
   ".bz2".data, ".xz".data]

def code_exts : List PyStr :=
  [".cs".data, ".js".data, ".ts".data, ".py".data, ".java".data,
   ".cpp".data, ".h".data, ".ps1".data, ".psm1".data, ".sh".data,
   ".json".data, ".xml".data, ".yaml".data, ".yml".data]

def executable_exts : List PyStr :=
  [".exe".data, ".dll".data, ".msi".data, ".bat".data, ".cmd".data, ".com".data]

def database_exts : List PyStr :=
  [".sql".data, ".mdf".data, ".ldf".data, ".bak".data, ".db".data, ".sqlite".data]

def log_exts : List PyStr :=
  [".log".data, ".evt".data, ".evtx".data]

def temp_exts : List PyStr :=
  [".tmp".data, ".temp".data, ".bak".data, ".swp".data, ".cache".data]

/-- `get_file_category` from `shared/models.py` (the copy in
`activity_scan_directory/__init__.py` is textually identical): lower-case
the extension, then test it against the fixed tables in order. -/
def get_file_category (extension : PyStr) : String :=
  let ext := strLower extension
  if ext ∈ document_exts then "Documents"
  else if ext ∈ image_exts then "Images"
  else if ext ∈ video_exts then "Videos"
  else if ext ∈ audio_exts then "Audio"
  else if ext ∈ archive_exts then "Archives"
  else if ext ∈ code_exts then "Code"
  else if ext ∈ executable_exts then "Executables"
  else if ext ∈ database_exts then "Databases"
  else if ext ∈ log_exts then "Logs"
  else if ext ∈ temp_exts then "Temporary"
  else "Other"

/-! ### `shared/models.py` — buckets -/

/-- `get_age_bucket` from `shared/models.py`. Ages are `Int` because the
Python code computes them as a (possibly negative) timedelta day count. -/
def get_age_bucket (age_in_days : Int) : String :=
  if age_in_days ≤ 7 then "0-7 days"
  else if age_in_days ≤ 30 then "8-30 days"
  else if age_in_days ≤ 90 then "31-90 days"
  else if age_in_days ≤ 180 then "91-180 days"
  else if age_in_days ≤ 365 then "181-365 days"
  else if age_in_days ≤ 730 then "1-2 years"
  else if age_in_days ≤ 1825 then "2-5 years"
  else "5+ years"

/-- `get_size_bucket` from `shared/models.py` (`KB = 1024`, `MB = KB*1024`,
`GB = MB*1024`). -/
def get_size_bucket (size_bytes : Nat) : String :=
  if size_bytes < 1024 then "< 1 KB"
  else if size_bytes < 1024 * 1024 then "1 KB - 1 MB"
  else if size_bytes < 10 * (1024 * 1024) then "1 MB - 10 MB"
  else if size_bytes < 100 * (1024 * 1024) then "10 MB - 100 MB"
  else if size_bytes < 500 * (1024 * 1024) then "100 MB - 500 MB"
  else if size_bytes < 1024 * 1024 * 1024 then "500 MB - 1 GB"
  else if size_bytes < 5 * (1024 * 1024 * 1024) then "1 GB - 5 GB"
  else if size_bytes < 10 * (1024 * 1024 * 1024) then "5 GB - 10 GB"
  else "10+ GB"

/-- Modelled from the spec: the size-bucket intervals of section 4.1
("half-open intervals: <1Ki, <1Mi, <10Mi, <100Mi, <500Mi, <1Gi, <5Gi,
<10Gi, ≥10Gi"), each paired with the label the code uses. -/
def sizeBucketSpec : List (String × (Nat → Bool)) :=
  [("< 1 KB", fun s => s < 1024),
   ("1 KB - 1 MB", fun s => 1024 ≤ s && s < 1024 * 1024),
   ("1 MB - 10 MB", fun s => 1024 * 1024 ≤ s && s < 10 * (1024 * 1024)),
   ("10 MB - 100 MB", fun s => 10 * (1024 * 1024) ≤ s && s < 100 * (1024 * 1024)),
   ("100 MB - 500 MB", fun s => 100 * (1024 * 1024) ≤ s && s < 500 * (1024 * 1024)),
   ("500 MB - 1 GB", fun s => 500 * (1024 * 1024) ≤ s && s < 1024 * 1024 * 1024),
   ("1 GB - 5 GB", fun s => 1024 * 1024 * 1024 ≤ s && s < 5 * (1024 * 1024 * 1024)),
   ("5 GB - 10 GB", fun s => 5 * (1024 * 1024 * 1024) ≤ s && s < 10 * (1024 * 1024 * 1024)),
   ("10+ GB", fun s => 10 * (1024 * 1024 * 1024) ≤ s)]

/-- Modelled from the spec: the age-bucket intervals of section 4.1
("thresholds (days): ≤7, ≤30, ≤90, ≤180, ≤365, ≤730, ≤1825, >1825"),
restricted to nonnegative ages. -/
def ageBucketSpec : List (String × (Int → Bool)) :=
  [("0-7 days", fun a => a ≤ 7),
   ("8-30 days", fun a => 7 < a && a ≤ 30),
   ("31-90 days", fun a => 30 < a && a ≤ 90),
   ("91-180 days", fun a => 90 < a && a ≤ 180),
   ("181-365 days", fun a => 180 < a && a ≤ 365),
   ("1-2 years", fun a => 365 < a && a ≤ 730),
   ("2-5 years", fun a => 730 < a && a ≤ 1825),
   ("5+ years", fun a => 1825 < a)]

theorem sizeBucketSpec_exactly_one (S : Nat) :
    sizeBucketSpec.countP (fun b => b.2 S) = 1 := by
  simp only [sizeBucketSpec, List.countP_cons, List.countP_nil,
    decide_eq_true_eq, Bool.and_eq_true, decide_eq_true_eq]
  split_ifs <;> omega

theorem ageBucketSpec_exactly_one (A : Int) :
    ageBucketSpec.countP (fun b => b.2 A) = 1 := by
  simp only [ageBucketSpec, List.countP_cons, List.countP_nil,
    decide_eq_true_eq, Bool.and_eq_true, decide_eq_true_eq]
  split_ifs <;> omega

set_option maxHeartbeats 1000000 in
theorem get_size_bucket_matches_spec (S : Nat) (name : String) (p : Nat → Bool)
    (hmem : (name, p) ∈ sizeBucketSpec) (hp : p S = true) :
    get_size_bucket S = name := by
  simp only [sizeBucketSpec, List.mem_cons, List.not_mem_nil, or_false,
    Prod.mk.injEq] at hmem
  rcases hmem with h | h | h | h | h | h | h | h | h <;>
    · obtain ⟨hn, hf⟩ := h
      subst hn
      subst hf
      simp only [Bool.and_eq_true, decide_eq_true_eq] at hp
      simp only [get_size_bucket]
      split_ifs <;> first | rfl | omega

set_option maxHeartbeats 1000000 in
theorem get_age_bucket_matches_spec (A : Int) (name : String) (p : Int → Bool)
    (hmem : (name, p) ∈ ageBucketSpec) (hp : p A = true) :
    get_age_bucket A = name := by
  simp only [ageBucketSpec, List.mem_cons, List.not_mem_nil, or_false,
    Prod.mk.injEq] at hmem
  rcases hmem with h | h | h | h | h | h | h | h <;>
    · obtain ⟨hn, hf⟩ := h
      subst hn
      subst hf
      simp only [Bool.and_eq_true, decide_eq_true_eq] at hp
      simp only [get_age_bucket]
      split_ifs <;> first | rfl | omega

/-! ### `activity_scan_directory/__init__.py` — the directory-scan activity

External I/O is data: the directory listing is an `Except` (the outer
try/except catches a directory that cannot be opened/listed), each file
entry carries the outcome of its `get_file_properties` call (the per-file
try/except) and of its download+md5 (the inner hash try/except). -/

/-- Outcome of `get_file_properties`: the two timestamps, as day-resolution
integers (`None` when the storage backend reports no value). -/
structure FileProps where
  last_modified : Option Int
  creation_time : Option Int
deriving DecidableEq

instance exceptDecEq {ε α : Type} [DecidableEq ε] [DecidableEq α] :
    DecidableEq (Except ε α)
  | .ok a, .ok b => decidable_of_iff (a = b) (by simp)
  | .error a, .error b => decidable_of_iff (a = b) (by simp)
  | .ok _, .error _ => .isFalse (by simp)
  | .error _, .ok _ => .isFalse (by simp)

/-- One file entry of a directory listing, together with the outcomes of
the external calls the activity would perform on it. -/
structure FileEntry where
  name : String
  /-- `os.path.splitext(item_name)[1]`, carried as data. -/
  ext : PyStr
  size : Nat
  /-- outcome of `file_client.get_file_properties()` -/
  props : Except String FileProps
  /-- outcome of `download_file().readall()` + `hashlib.md5(...).hexdigest().upper()` -/
  download : Except String String
deriving DecidableEq

inductive DirEntry where
  | subdir (name : String)
  | file (f : FileEntry)
deriving DecidableEq

/-- The configuration slice the activity reads from its input. `excluded`
stands for `is_file_excluded(name, exclude_patterns)`; `max_hash_size`
is `max_file_size_for_hash_mb * 1024 * 1024`. -/
structure ScanCfg where
  skip_hash : Bool
  max_hash_size : Nat
  excluded : String → Bool

/-- The hash condition of line 208 of the activity:
`not skip_hash and file_size <= max_hash_size and file_size <= 10*1024*1024`. -/
def HashCond (cfg : ScanCfg) (file_size : Nat) : Prop :=
  cfg.skip_hash = false ∧ file_size ≤ cfg.max_hash_size ∧
    file_size ≤ 10 * 1024 * 1024

instance (cfg : ScanCfg) (file_size : Nat) : Decidable (HashCond cfg file_size) := by
  unfold HashCond
  infer_instance

/-- The `file_hash` computation of the activity: `"SKIPPED"` initially,
the download+md5 (with `"ERROR"` on an exception) when the hash condition
holds, `"SKIPPED_TOO_LARGE"` when hashing is on but the file exceeds the
configured bound. -/
def computeFileHash (cfg : ScanCfg) (file_size : Nat)
    (download : Except String String) : String :=
  if HashCond cfg file_size then
    match download with
    | .ok digest => digest
    | .error _ => "ERROR"
  else if cfg.skip_hash = false ∧ cfg.max_hash_size < file_size then
    "SKIPPED_TOO_LARGE"
  else "SKIPPED"

/-- `f"{directory_path}/{item_name}" if directory_path else item_name` -/
def joinPath (directory_path item_name : String) : String :=
  if directory_path = "" then item_name else directory_path ++ "/" ++ item_name

/-- `display_path = directory_path if directory_path else "(root)"` -/
def displayPath (directory_path : String) : String :=
  if directory_path = "" then "(root)" else directory_path

/-- The file record built by the activity (the fields the claims are
about; constant metadata fields of the Python dict are omitted). -/
structure FileRecord where
  FilePath : String
  FileName : String
  FileExtension : PyStr
  FileSizeBytes : Nat
  AgeInDays : Int
  FileHash : String
  FileCategory : String
  AgeBucket : String
  SizeBucket : String
deriving DecidableEq

def mkFileRecord (cfg : ScanCfg) (now : Int) (directory_path : String)
    (f : FileEntry) (props : FileProps) : FileRecord :=
  let age_in_days : Int :=
    match props.last_modified with
    | none => 0
    | some lm => now - lm
  { FilePath := joinPath directory_path f.name
    FileName := f.name
    FileExtension := f.ext
    FileSizeBytes := f.size
    AgeInDays := age_in_days
    FileHash := computeFileHash cfg f.size f.download
    FileCategory := get_file_category f.ext
    AgeBucket := get_age_bucket age_in_days
    SizeBucket := get_size_bucket f.size }

/-- The `result` dict of the activity. -/
structure ScanOut where
  directory_path : String
  files_processed : Nat
  bytes_processed : Nat
  subdirectories : List String
  file_records : List FileRecord
  errors : List String
deriving DecidableEq

def emptyScanOut (directory_path : String) : ScanOut :=
  ⟨directory_path, 0, 0, [], [], []⟩

def fileErrorMsg (f : FileEntry) (msg : String) : String :=
  "Error processing file " ++ f.name ++ ": " ++ msg

def dirErrorMsg (directory_path msg : String) : String :=
  "Error scanning directory " ++ displayPath directory_path ++ ": " ++ msg

/-- The body of the `for item in directory_client.list_directories_and_files()`
loop: subdirectories are recorded, excluded files are skipped silently, a
failing `get_file_properties` is caught and converted to an error string
(scanning continues), a successful one yields a file record. -/
def processEntry (cfg : ScanCfg) (now : Int) (directory_path : String)
    (acc : ScanOut) (e : DirEntry) : ScanOut :=
  match e with
  | .subdir name =>
      { acc with subdirectories := acc.subdirectories ++ [joinPath directory_path name] }
  | .file f =>
      if cfg.excluded f.name then acc
      else
        match f.props with
        | .error msg => { acc with errors := acc.errors ++ [fileErrorMsg f msg] }
        | .ok props =>
            { acc with
              file_records := acc.file_records ++ [mkFileRecord cfg now directory_path f props]
              files_processed := acc.files_processed + 1
              bytes_processed := acc.bytes_processed + f.size }

/-- `main` of the scan activity: a directory that cannot be opened/listed
yields one directory-level error and nothing else; otherwise the entries
are processed in order. -/
def scan_directory (cfg : ScanCfg) (now : Int) (directory_path : String)
    (listing : Except String (List DirEntry)) : ScanOut :=
  match listing with
  | .error msg =>
      { emptyScanOut directory_path with errors := [dirErrorMsg directory_path msg] }
  | .ok entries => entries.foldl (processEntry cfg now directory_path) (emptyScanOut directory_path)

/-! #### Characterization of a successful listing scan -/

def entrySubdir (directory_path : String) : DirEntry → Option String
  | .subdir name => some (joinPath directory_path name)
  | .file _ => none

def entryError (cfg : ScanCfg) : DirEntry → Option String
  | .subdir _ => none
  | .file f =>
      if cfg.excluded f.name then none
      else
        match f.props with
        | .error msg => some (fileErrorMsg f msg)
        | .ok _ => none

def entryRecord (cfg : ScanCfg) (now : Int) (directory_path : String) :
    DirEntry → Option FileRecord
  | .subdir _ => none
  | .file f =>
      if cfg.excluded f.name then none
      else
        match f.props with
        | .error _ => none
        | .ok props => some (mkFileRecord cfg now directory_path f props)

def entryBytes (cfg : ScanCfg) : DirEntry → Nat
  | .subdir _ => 0
  | .file f =>
      if cfg.excluded f.name then 0
      else
        match f.props with
        | .error _ => 0
        | .ok _ => f.size

theorem processEntry_fields (cfg : ScanCfg) (now : Int) (dp : String)
    (acc : ScanOut) (e : DirEntry) :
    processEntry cfg now dp acc e =
      { acc with
        subdirectories := acc.subdirectories ++ (entrySubdir dp e).toList
        errors := acc.errors ++ (entryError cfg e).toList
        file_records := acc.file_records ++ (entryRecord cfg now dp e).toList
        files_processed := acc.files_processed + (entryRecord cfg now dp e).toList.length
        bytes_processed := acc.bytes_processed + entryBytes cfg e } := by
  cases e with
  | subdir name => simp [processEntry, entrySubdir, entryError, entryRecord, entryBytes]
  | file f =>
      by_cases hex : cfg.excluded f.name
      · simp [processEntry, entrySubdir, entryError, entryRecord, entryBytes, hex]
      · cases hp : f.props with
        | error msg =>
            simp [processEntry, entrySubdir, entryError, entryRecord, entryBytes, hex, hp]
        | ok props =>
            simp [processEntry, entrySubdir, entryError, entryRecord, entryBytes, hex, hp]

theorem scan_foldl_characterization (cfg : ScanCfg) (now : Int) (dp : String)
    (entries : List DirEntry) (acc : ScanOut) :
    entries.foldl (processEntry cfg now dp) acc =
      { acc with
        subdirectories := acc.subdirectories ++ entries.filterMap (entrySubdir dp)
        errors := acc.errors ++ entries.filterMap (entryError cfg)
        file_records := acc.file_records ++ entries.filterMap (entryRecord cfg now dp)
        files_processed :=
          acc.files_processed + (entries.filterMap (entryRecord cfg now dp)).length
        bytes_processed := acc.bytes_processed + (entries.map (entryBytes cfg)).sum } := by
  induction entries generalizing acc with
  | nil => simp
  | cons e rest ih =>
      rw [List.foldl_cons, ih, processEntry_fields]
      cases hs : entrySubdir dp e <;> cases he : entryError cfg e <;>
        cases hr : entryRecord cfg now dp e <;>
          simp [List.filterMap_cons, hs, he, hr] <;> omega

/-- The scan of a well-listed directory, fully characterized by per-entry
functions: each entry contributes independently of the others. -/
theorem scan_directory_ok (cfg : ScanCfg) (now : Int) (dp : String)
    (entries : List DirEntry) :
    scan_directory cfg now dp (.ok entries) =
      { directory_path := dp
        subdirectories := entries.filterMap (entrySubdir dp)
        errors := entries.filterMap (entryError cfg)
        file_records := entries.filterMap (entryRecord cfg now dp)
        files_processed := (entries.filterMap (entryRecord cfg now dp)).length
        bytes_processed := (entries.map (entryBytes cfg)).sum } := by
  rw [scan_directory, scan_foldl_characterization]
  simp [emptyScanOut]

/-- All ten extension tables, concatenated. -/
def allCategoryExts : List PyStr :=
  document_exts ++ image_exts ++ video_exts ++ audio_exts ++ archive_exts ++
    code_exts ++ executable_exts ++ database_exts ++ log_exts ++ temp_exts

/-- C8: for every size S ≥ 0 and every age A ≥ 0, exactly one size bucket
and exactly one age bucket apply (the threshold intervals are total and
mutually exclusive), the code's bucket functions return the label of the
interval that holds, and the boundaries are inclusive on the lower side:
`get_size_bucket 1024 = "1 KB - 1 MB"`, not `"< 1 KB"`. -/
theorem c8_bucket_totality_exclusivity :
    (∀ S : Nat, sizeBucketSpec.countP (fun b => b.2 S) = 1) ∧
    (∀ A : Int, 0 ≤ A → ageBucketSpec.countP (fun b => b.2 A) = 1) ∧
    (∀ (S : Nat) (name : String) (p : Nat → Bool),
      (name, p) ∈ sizeBucketSpec → p S = true → get_size_bucket S = name) ∧
    (∀ (A : Int) (name : String) (p : Int → Bool),
      (name, p) ∈ ageBucketSpec → p A = true → get_age_bucket A = name) ∧
    get_size_bucket 1024 = "1 KB - 1 MB" ∧ get_size_bucket 1024 ≠ "< 1 KB" :=
  ⟨sizeBucketSpec_exactly_one,
   fun A _ => ageBucketSpec_exactly_one A,
   get_size_bucket_matches_spec,
   get_age_bucket_matches_spec,
   by decide, by decide⟩

theorem c8_bucket_totality_exclusivity_witness :
    (0 : Int) ≤ 40 ∧ ageBucketSpec.countP (fun b => b.2 (40 : Int)) = 1 :=
  ⟨by decide, c8_bucket_totality_exclusivity.2.1 40 (by decide)⟩

/-- C9: categorization is case-insensitive (`get_file_category E` equals
`get_file_category` of the lower-cased extension), and every extension
whose lower-casing is in none of the fixed tables maps to `"Other"`. -/
theorem c9_categorization_idempotent :
    (∀ E : PyStr, get_file_category E = get_file_category (strLower E)) ∧
    (∀ E : PyStr, strLower E ∉ allCategoryExts → get_file_category E = "Other") := by
  constructor
  · intro E
    simp only [get_file_category, strLower_idem]
  · intro E h
    simp only [allCategoryExts, List.mem_append, not_or] at h
    obtain ⟨⟨⟨⟨⟨⟨⟨⟨⟨h1, h2⟩, h3⟩, h4⟩, h5⟩, h6⟩, h7⟩, h8⟩, h9⟩, h10⟩ := h
    simp [get_file_category, h1, h2, h3, h4, h5, h6, h7, h8, h9, h10]

theorem c9_categorization_idempotent_witness :
    strLower ".Xyz".data ∉ allCategoryExts ∧
      get_file_category ".Xyz".data = "Other" :=
  ⟨by decide, c9_categorization_idempotent.2 ".Xyz".data (by decide)⟩

/-- C10: the extension tables overlap and the first matching table wins in
the fixed order of the code: `".bak"` is in both the database table and
the temporary table, and always maps to `"Databases"`, never
`"Temporary"`. -/
theorem c10_bak_prefers_databases :
    ".bak".data ∈ database_exts ∧ ".bak".data ∈ temp_exts ∧
    get_file_category ".bak".data = "Databases" ∧
    get_file_category ".bak".data ≠ "Temporary" := by
  refine ⟨by decide, by decide, by decide, by decide⟩

/-- C5: a per-file failure (a failing property fetch on a non-excluded
file) is converted to an error string appended in position to the
result's error list, and scanning continues: the file records, the
subdirectory list and the counters are exactly those of the same listing
without the failing entry.  A directory-level failure (the listing itself
raises) yields a result with zero file records, zero subdirectories,
zero counters and a single error string. -/
theorem c5_error_isolation (cfg : ScanCfg) (now : Int) (dp : String)
    (l₁ l₂ : List DirEntry) (f : FileEntry) (msg : String)
    (hex : cfg.excluded f.name = false) (hprops : f.props = .error msg) :
    ((scan_directory cfg now dp (.ok (l₁ ++ DirEntry.file f :: l₂))).file_records
        = (scan_directory cfg now dp (.ok (l₁ ++ l₂))).file_records ∧
      (scan_directory cfg now dp (.ok (l₁ ++ DirEntry.file f :: l₂))).subdirectories
        = (scan_directory cfg now dp (.ok (l₁ ++ l₂))).subdirectories ∧
      (scan_directory cfg now dp (.ok (l₁ ++ DirEntry.file f :: l₂))).files_processed
        = (scan_directory cfg now dp (.ok (l₁ ++ l₂))).files_processed ∧
      (scan_directory cfg now dp (.ok (l₁ ++ DirEntry.file f :: l₂))).bytes_processed
        = (scan_directory cfg now dp (.ok (l₁ ++ l₂))).bytes_processed ∧
      (scan_directory cfg now dp (.ok (l₁ ++ DirEntry.file f :: l₂))).errors
        = (scan_directory cfg now dp (.ok l₁)).errors ++ [fileErrorMsg f msg]
            ++ (scan_directory cfg now dp (.ok l₂)).errors) ∧
    ∀ m, scan_directory cfg now dp (.error m) =
      { emptyScanOut dp with errors := [dirErrorMsg dp m] } := by
  have hsub : entrySubdir dp (DirEntry.file f) = none := rfl
  have herr : entryError cfg (DirEntry.file f) = some (fileErrorMsg f msg) := by
    simp [entryError, hex, hprops]
  have hrec : entryRecord cfg now dp (DirEntry.file f) = none := by
    simp [entryRecord, hex, hprops]
  have hbytes : entryBytes cfg (DirEntry.file f) = 0 := by
    simp [entryBytes, hex, hprops]
  refine ⟨⟨?_, ?_, ?_, ?_, ?_⟩, fun m => rfl⟩ <;>
    simp [scan_directory_ok, List.filterMap_append, List.filterMap_cons,
      hsub, herr, hrec, hbytes]

theorem c5_error_isolation_witness :
    (let cfg : ScanCfg := ⟨true, 0, fun _ => false⟩
     let f : FileEntry := ⟨"a.txt", ".txt".data, 3, .error "boom", .error "x"⟩
     cfg.excluded f.name = false ∧ f.props = .error "boom" ∧
       (scan_directory cfg 0 "" (.ok [DirEntry.file f])).file_records
         = (scan_directory cfg 0 "" (.ok ([] : List DirEntry))).file_records) :=
  ⟨rfl, rfl,
    (c5_error_isolation ⟨true, 0, fun _ => false⟩ 0 "" [] []
      ⟨"a.txt", ".txt".data, 3, .error "boom", .error "x"⟩ "boom" rfl rfl).1.1⟩

/-- C6: a hash is attempted exactly when hashing is enabled and the file
size is at most the minimum of the configured bound and the fixed
10 MiB ceiling; outside that condition the download outcome is never
consulted; a failing hash computation still emits the record, with the
sentinel `"ERROR"` as its hash; with hashing disabled every hash field is
the sentinel `"SKIPPED"`. -/
theorem c6_hash_policy (cfg : ScanCfg) (size : Nat) :
    (HashCond cfg size ↔
      cfg.skip_hash = false ∧ size ≤ min cfg.max_hash_size (10 * 1024 * 1024)) ∧
    (∀ d d', ¬ HashCond cfg size →
      computeFileHash cfg size d = computeFileHash cfg size d') ∧
    (∀ msg, HashCond cfg size → computeFileHash cfg size (.error msg) = "ERROR") ∧
    (cfg.skip_hash = true → ∀ d, computeFileHash cfg size d = "SKIPPED") ∧
    (∀ (now : Int) (dp : String) (f : FileEntry) (props : FileProps) (msg : String),
      cfg.excluded f.name = false → f.props = .ok props → f.size = size →
      f.download = .error msg → HashCond cfg size →
      (scan_directory cfg now dp (.ok [DirEntry.file f])).file_records.map
          (fun r => r.FileHash) = ["ERROR"]) := by
  refine ⟨?_, ?_, ?_, ?_, ?_⟩
  · unfold HashCond
    rw [le_min_iff]
  · intro d d' hc
    simp [computeFileHash, hc]
  · intro msg hc
    simp [computeFileHash, hc]
  · intro hskip d
    have hc : ¬ HashCond cfg size := by
      simp [HashCond, hskip]
    simp [computeFileHash, hc, hskip]
  · intro now dp f props msg hex hprops hsize hdl hc
    have hrec : entryRecord cfg now dp (DirEntry.file f)
        = some (mkFileRecord cfg now dp f props) := by
      simp [entryRecord, hex, hprops]
    subst hsize
    simp [scan_directory_ok, List.filterMap_cons, hrec, mkFileRecord, hdl,
      computeFileHash, hc]

theorem c6_hash_policy_witness :
    (let cfg : ScanCfg := ⟨false, 5 * 1024 * 1024, fun _ => false⟩
     HashCond cfg 100 ∧ computeFileHash cfg 100 (.error "net") = "ERROR") :=
  ⟨by decide,
    (c6_hash_policy ⟨false, 5 * 1024 * 1024, fun _ => false⟩ 100).2.2.1 "net"
      (by decide)⟩

/-! ### `orchestrator_file_share/__init__.py` — the per-share wave scheduler

The orchestrator is replay-deterministic state folding over recorded
activity results, so it embeds as a pure function of an environment:
`scan` is the recorded result of `activity_scan_directory` per directory
path, `sendOk` the recorded `success` flag of the i-th
`activity_send_to_log_analytics` call.  Directory paths are modeled as
lists of segments (the Python root is the empty string, here `[]`).
File records are opaque (`R`): the orchestrator only moves them. -/

/-- A directory path, as a list of path segments (root = `[]`). -/
abbrev DirPath := List Nat

/-- The fields of an `activity_scan_directory` result that the
orchestrator reads. -/
structure ScanRes (R : Type) where
  subdirectories : List DirPath
  file_records : List R
  files_processed : Nat
  bytes_processed : Nat
  errors : List String

/-- Recorded activity results plus the orchestration input's batch size. -/
structure ShareEnv (R : Type) where
  scan : DirPath → ScanRes R
  sendOk : Nat → Bool
  batch_size : Nat

/-- The local variables of `orchestrator_file_share`, plus two traces of
the activity calls made so far: `dispatched` (directory paths handed to
the scan activity, in order) and `sends` (batches handed to the delivery
activity, in order). -/
structure ShareState (R : Type) where
  total_files_processed : Nat
  total_bytes_processed : Nat
  total_batches_sent : Nat
  all_errors : List String
  current_batch : List R
  directories_to_process : List DirPath
  processed_directories : List DirPath
  wave_number : Nat
  dispatched : List DirPath
  sends : List (List R)

/-- `max_parallel_dirs = 10`, the fixed per-wave fan-out width. -/
def max_parallel_dirs : Nat := 10

/-- The inner dequeue loop of a wave:
`while directories_to_process and len(current_wave_dirs) < max_parallel_dirs`,
popping from the front, skipping already-processed paths, marking the
chosen ones processed at dequeue time.  Returns
(current_wave_dirs, remaining frontier, updated processed set). -/
def takeWave (maxPar : Nat) :
    List DirPath → List DirPath → List DirPath →
      List DirPath × List DirPath × List DirPath
  | [], wave, processed => (wave, [], processed)
  | d :: rest, wave, processed =>
      if wave.length < maxPar then
        if d ∈ processed then takeWave maxPar rest wave processed
        else takeWave maxPar rest (wave ++ [d]) (processed ++ [d])
      else (wave, d :: rest, processed)

/-- One pass of the `while len(current_batch) >= batch_size` send loop,
with an explicit iteration bound (each iteration removes `batch_size ≥ 1`
records, so `pending.length` iterations always suffice — see
`drainLoop`): slice off the first `batch_size` records, call the
delivery activity (its success flag is `sendOk` at the current send
index), count successful sends. -/
def drainGo {R : Type} (sendOk : Nat → Bool) (B : Nat) :
    Nat → List R → Nat → List (List R) → List R × Nat × List (List R)
  | 0, pending, batchesSent, sends => (pending, batchesSent, sends)
  | n + 1, pending, batchesSent, sends =>
      if 0 < B ∧ B ≤ pending.length then
        drainGo sendOk B n (pending.drop B)
          (if sendOk sends.length then batchesSent + 1 else batchesSent)
          (sends ++ [pending.take B])
      else (pending, batchesSent, sends)

/-- The `while len(current_batch) >= batch_size` send loop.  Returns
(remaining pending records, updated batches-sent counter, send trace). -/
def drainLoop {R : Type} (sendOk : Nat → Bool) (B : Nat) (pending : List R)
    (batchesSent : Nat) (sends : List (List R)) :
    List R × Nat × List (List R) :=
  drainGo sendOk B pending.length pending batchesSent sends

/-- Folding one scan result into the state (the body of
`for result in scan_results`): enqueue the discovered subdirectories not
already processed, extend the pending batch, accumulate counters and
errors, then run the send loop. -/
def foldResult {R : Type} (env : ShareEnv R) (st : ShareState R)
    (result : ScanRes R) : ShareState R :=
  let fr := st.directories_to_process ++
    result.subdirectories.filter (fun s => s ∉ st.processed_directories)
  let out := drainLoop env.sendOk env.batch_size
    (st.current_batch ++ result.file_records) st.total_batches_sent st.sends
  { st with
    directories_to_process := fr
    total_files_processed := st.total_files_processed + result.files_processed
    total_bytes_processed := st.total_bytes_processed + result.bytes_processed
    all_errors := st.all_errors ++ result.errors
    current_batch := out.1
    total_batches_sent := out.2.1
    sends := out.2.2 }

/-- One iteration of the outer `while directories_to_process` loop:
bump the wave number, dequeue up to `max_parallel_dirs` fresh paths,
fan out the scan activity over them and fold the results in order.
(The Python `continue` on an empty wave is the identity fold.) -/
def waveStep {R : Type} (env : ShareEnv R) (st : ShareState R) : ShareState R :=
  let t := takeWave max_parallel_dirs st.directories_to_process [] st.processed_directories
  let st1 := { st with
    wave_number := st.wave_number + 1
    directories_to_process := t.2.1
    processed_directories := t.2.2
    dispatched := st.dispatched ++ t.1 }
  (t.1.map env.scan).foldl (foldResult env) st1

/-- The outer loop, with explicit fuel (the loop terminates only for
well-founded inputs; the termination theorem supplies the fuel bound). -/
def runWaves {R : Type} (env : ShareEnv R) : Nat → ShareState R → ShareState R
  | 0, st => st
  | fuel + 1, st =>
      if st.directories_to_process = [] then st
      else runWaves env fuel (waveStep env st)

/-- The initial state: frontier = [root], everything else empty/zero. -/
def initShareState (R : Type) : ShareState R :=
  { total_files_processed := 0
    total_bytes_processed := 0
    total_batches_sent := 0
    all_errors := []
    current_batch := []
    directories_to_process := [[]]
    processed_directories := []
    wave_number := 0
    dispatched := []
    sends := [] }

/-- The `if current_batch:` final send after the loop. -/
def finalFlush {R : Type} (env : ShareEnv R) (st : ShareState R) : ShareState R :=
  if st.current_batch.isEmpty then st
  else
    { st with
      sends := st.sends ++ [st.current_batch]
      total_batches_sent :=
        if env.sendOk st.sends.length then st.total_batches_sent + 1
        else st.total_batches_sent }

/-- The `result` dict returned by the sub-orchestrator.  `completed_at`
is `datetime.utcnow().isoformat()` — a wall-clock read performed inside
the orchestrator function itself, modeled by the `clock` argument. -/
structure ShareReport where
  files_processed : Nat
  bytes_processed : Nat
  directories_processed : Nat
  batches_sent : Nat
  waves_completed : Nat
  errors : List String
  error_count : Nat
  completed_at : Nat

def mkShareReport {R : Type} (st : ShareState R) (clock : Nat) : ShareReport :=
  { files_processed := st.total_files_processed
    bytes_processed := st.total_bytes_processed
    directories_processed := st.processed_directories.length
    batches_sent := st.total_batches_sent
    waves_completed := st.wave_number
    errors := st.all_errors.take 100
    error_count := st.all_errors.length
    completed_at := clock }

/-- The whole sub-orchestrator: run the wave loop, flush the remainder,
build the report (reading the wall clock for `completed_at`). -/
def orchestrator_file_share {R : Type} (env : ShareEnv R) (fuel clock : Nat) :
    ShareReport × ShareState R :=
  let st := finalFlush env (runWaves env fuel (initShareState R))
  (mkShareReport st clock, st)

/-! #### Finite cycle-free directory trees

A tree is given extensionally by its list of directory paths: duplicate
free, containing the root, and closed under parents.  The storage
collaborator then reports as subdirectories of `p` exactly the nodes
whose parent is `p`. -/

/-- The children of `p` among `nodes`: the nonempty paths whose
`dropLast` is `p`. -/
def children (nodes : List DirPath) (p : DirPath) : List DirPath :=
  nodes.filter (fun q => q ≠ [] ∧ q.dropLast = p)

/-- A finite, cycle-free directory tree presented as its path list. -/
structure IsTree (nodes : List DirPath) : Prop where
  nodup : nodes.Nodup
  root_mem : [] ∈ nodes
  parent_mem : ∀ q ∈ nodes, q ≠ [] → q.dropLast ∈ nodes

/-- The directories at depth `k` (the root has depth 0). -/
def treeLevel (nodes : List DirPath) (k : Nat) : List DirPath :=
  nodes.filter (fun p => p.length = k)

/-- Number of levels of the tree: one more than the longest path. -/
def treeDepth (nodes : List DirPath) : Nat :=
  (nodes.map List.length).foldr max 0 + 1

/-- `env` presents the tree `nodes`: the scan activity reports exactly
the tree children of each directory it is asked to scan. -/
def PresentsTree {R : Type} (env : ShareEnv R) (nodes : List DirPath) : Prop :=
  ∀ p : DirPath, (env.scan p).subdirectories = children nodes p

/-! #### Structural lemmas about the wave machinery -/

/-- `takeWave` moves one block of paths: the dispatched wave extends the
incoming wave accumulator by exactly the block that also extends the
processed set. -/
theorem takeWave_spec (maxPar : Nat) :
    ∀ (fr wave pr : List DirPath), ∃ w,
      (takeWave maxPar fr wave pr).1 = wave ++ w ∧
      (takeWave maxPar fr wave pr).2.2 = pr ++ w := by
  intro fr
  induction fr with
  | nil =>
      intro wave pr
      exact ⟨[], by simp [takeWave], by simp [takeWave]⟩
  | cons d rest ih =>
      intro wave pr
      by_cases hw : wave.length < maxPar
      · by_cases hd : d ∈ pr
        · obtain ⟨w, h1, h2⟩ := ih wave pr
          exact ⟨w, by simp [takeWave, hw, hd, h1], by simp [takeWave, hw, hd, h2]⟩
        · obtain ⟨w, h1, h2⟩ := ih (wave ++ [d]) (pr ++ [d])
          refine ⟨d :: w, ?_, ?_⟩
          · simp only [takeWave, hw, if_true, hd, if_false]
            rw [h1]
            simp
          · simp only [takeWave, hw, if_true, hd, if_false]
            rw [h2]
            simp
      · exact ⟨[], by simp [takeWave, hw], by simp [takeWave, hw]⟩

/-- The remaining frontier after a dequeue never gains occurrences. -/
theorem takeWave_frontier_count (maxPar : Nat) (p : DirPath) :
    ∀ (fr wave pr : List DirPath),
      ((takeWave maxPar fr wave pr).2.1).count p ≤ fr.count p := by
  intro fr
  induction fr with
  | nil => intro wave pr; simp [takeWave]
  | cons d rest ih =>
      intro wave pr
      by_cases hw : wave.length < maxPar
      · by_cases hd : d ∈ pr
        · simp only [takeWave, hw, if_true, hd, if_false]
          calc ((takeWave maxPar rest wave pr).2.1).count p ≤ rest.count p := ih wave pr
            _ ≤ (d :: rest).count p := by
                simp [List.count_cons]
        · simp only [takeWave, hw, if_true, hd, if_false]
          calc ((takeWave maxPar rest (wave ++ [d]) (pr ++ [d])).2.1).count p
              ≤ rest.count p := ih _ _
            _ ≤ (d :: rest).count p := by
                simp [List.count_cons]
      · simp [takeWave, hw]

/-- When no frontier element is already processed (and the frontier is
duplicate-free), the dequeue loop takes exactly the first
`maxPar - wave.length` paths, skipping nothing. -/
theorem takeWave_no_skip (maxPar : Nat) :
    ∀ (fr wave pr : List DirPath), fr.Nodup → (∀ p ∈ fr, p ∉ pr) →
      takeWave maxPar fr wave pr =
        (wave ++ fr.take (maxPar - wave.length),
          fr.drop (maxPar - wave.length),
          pr ++ fr.take (maxPar - wave.length)) := by
  intro fr
  induction fr with
  | nil => intro wave pr _ _; simp [takeWave]
  | cons d rest ih =>
      intro wave pr hnd hdisj
      by_cases hw : wave.length < maxPar
      · have hd : d ∉ pr := hdisj d (by simp)
        have hstep : maxPar - wave.length = (maxPar - (wave.length + 1)) + 1 := by omega
        have hdisj' : ∀ p ∈ rest, p ∉ pr ++ [d] := by
          intro p hp
          simp only [List.mem_append, List.mem_singleton]
          push_neg
          refine ⟨hdisj p (by simp [hp]), ?_⟩
          intro hpd
          subst hpd
          exact (List.nodup_cons.mp hnd).1 hp
        simp only [takeWave, hw, if_true, hd, if_false]
        rw [ih (wave ++ [d]) (pr ++ [d]) (List.nodup_cons.mp hnd).2 hdisj']
        rw [hstep]
        simp [List.take_succ_cons, List.drop_succ_cons, List.length_append]
      · have h0 : maxPar - wave.length = 0 := by omega
        simp [takeWave, hw, h0]

/-- `foldResult` leaves the processed set, the dispatch trace and the
wave number untouched. -/
theorem foldl_foldResult_stable {R : Type} (env : ShareEnv R)
    (results : List (ScanRes R)) : ∀ st : ShareState R,
    ((results.foldl (foldResult env) st).processed_directories
        = st.processed_directories ∧
      (results.foldl (foldResult env) st).dispatched = st.dispatched ∧
      (results.foldl (foldResult env) st).wave_number = st.wave_number) := by
  induction results with
  | nil => intro st; exact ⟨rfl, rfl, rfl⟩
  | cons r rs ih =>
      intro st
      rw [List.foldl_cons]
      exact ih (foldResult env st r)

/-- Folding the wave's results appends to the frontier exactly the
reported subdirectories that are not in the (fixed) processed set. -/
theorem foldl_foldResult_frontier {R : Type} (env : ShareEnv R)
    (results : List (ScanRes R)) : ∀ st : ShareState R,
    (results.foldl (foldResult env) st).directories_to_process =
      st.directories_to_process ++
        results.flatMap
          (fun r => r.subdirectories.filter
            (fun s => s ∉ st.processed_directories)) := by
  induction results with
  | nil => intro st; simp
  | cons r rs ih =>
      intro st
      rw [List.foldl_cons, ih]
      have hpr : (foldResult env st r).processed_directories
          = st.processed_directories := rfl
      have hfr : (foldResult env st r).directories_to_process
          = st.directories_to_process ++
              r.subdirectories.filter (fun s => s ∉ st.processed_directories) := rfl
      rw [hpr, hfr, List.flatMap_cons, List.append_assoc]

/-! #### Tree facts -/

theorem mem_children {nodes : List DirPath} {p q : DirPath} :
    q ∈ children nodes p ↔ q ∈ nodes ∧ q ≠ [] ∧ q.dropLast = p := by
  simp [children, List.mem_filter]

theorem children_nodup {nodes : List DirPath} (h : nodes.Nodup) (p : DirPath) :
    (children nodes p).Nodup :=
  h.filter _

theorem children_disjoint (nodes : List DirPath) {p₁ p₂ : DirPath} (h : p₁ ≠ p₂) :
    List.Disjoint (children nodes p₁) (children nodes p₂) := by
  intro q h1 h2
  rw [mem_children] at h1 h2
  exact h (h1.2.2 ▸ h2.2.2)

/-- Everything below the maximal path length: any member's length bounds. -/
theorem le_foldr_max (l : List Nat) : ∀ x ∈ l, x ≤ l.foldr max 0 := by
  induction l with
  | nil => intro x hx; cases hx
  | cons a t ih =>
      intro x hx
      rcases List.mem_cons.mp hx with rfl | hx
      · exact Nat.le_max_left _ _
      · exact le_trans (ih x hx) (Nat.le_max_right _ _)

theorem length_lt_treeDepth {nodes : List DirPath} {q : DirPath}
    (hq : q ∈ nodes) : q.length < treeDepth nodes := by
  have : q.length ≤ (nodes.map List.length).foldr max 0 :=
    le_foldr_max _ _ (List.mem_map_of_mem _ hq)
  unfold treeDepth
  omega

/-! #### The wave-loop invariant for tree inputs -/

/-- Invariant of the wave loop for a tree presentation: the frontier and
processed set are duplicate-free, disjoint, contained in the tree, a
node is discovered (frontier or processed) exactly when it is the root
or its parent has been processed, and the dispatch trace coincides with
the processed list. -/
structure WaveInv {R : Type} (nodes : List DirPath) (st : ShareState R) : Prop where
  fr_nodup : st.directories_to_process.Nodup
  pr_nodup : st.processed_directories.Nodup
  disj : ∀ p ∈ st.directories_to_process, p ∉ st.processed_directories
  fr_sub : ∀ p ∈ st.directories_to_process, p ∈ nodes
  pr_sub : ∀ p ∈ st.processed_directories, p ∈ nodes
  reach : ∀ q ∈ nodes,
    (q ∈ st.processed_directories ∨ q ∈ st.directories_to_process) ↔
      (q = [] ∨ q.dropLast ∈ st.processed_directories)
  disp : st.dispatched = st.processed_directories

theorem waveInv_init {R : Type} (nodes : List DirPath) (ht : IsTree nodes) :
    WaveInv nodes (initShareState R) := by
  refine ⟨?_, ?_, ?_, ?_, ?_, ?_, rfl⟩
  · simp [initShareState]
  · simp [initShareState]
  · simp [initShareState]
  · intro p hp
    simp only [initShareState, List.mem_singleton] at hp
    subst hp
    exact ht.root_mem
  · simp [initShareState]
  · intro q _
    simp [initShareState]

/-- Under the invariant's disjointness, one `waveStep` takes exactly the
first `max_parallel_dirs` frontier entries as the wave, marks them
processed, and replaces the frontier by the remainder plus the reported,
still-unprocessed subdirectories of the wave. -/
theorem waveStep_char {R : Type} (env : ShareEnv R) (st : ShareState R)
    (hnd : st.directories_to_process.Nodup)
    (hdisj : ∀ p ∈ st.directories_to_process, p ∉ st.processed_directories) :
    (waveStep env st).processed_directories =
        st.processed_directories ++ st.directories_to_process.take max_parallel_dirs ∧
    (waveStep env st).dispatched =
        st.dispatched ++ st.directories_to_process.take max_parallel_dirs ∧
    (waveStep env st).wave_number = st.wave_number + 1 ∧
    (waveStep env st).directories_to_process =
      st.directories_to_process.drop max_parallel_dirs ++
        (st.directories_to_process.take max_parallel_dirs).flatMap
          (fun d => (env.scan d).subdirectories.filter
            (fun s => s ∉ st.processed_directories ++
              st.directories_to_process.take max_parallel_dirs)) := by
  have htw := takeWave_no_skip max_parallel_dirs st.directories_to_process []
    st.processed_directories hnd hdisj
  simp only [List.length_nil, Nat.sub_zero, List.nil_append] at htw
  unfold waveStep
  rw [htw]
  refine ⟨?_, ?_, ?_, ?_⟩
  · exact (foldl_foldResult_stable env _ _).1
  · exact (foldl_foldResult_stable env _ _).2.1
  · exact (foldl_foldResult_stable env _ _).2.2
  · rw [foldl_foldResult_frontier]
    rw [List.flatMap_map]

/-- Preservation of the wave-loop invariant by one wave. -/
theorem waveInv_step {R : Type} {nodes : List DirPath} {env : ShareEnv R}
    (ht : IsTree nodes) (hp : PresentsTree env nodes)
    {st : ShareState R} (inv : WaveInv nodes st) :
    WaveInv nodes (waveStep env st) := by
  have hp' : ∀ p, (env.scan p).subdirectories = children nodes p := hp
  obtain ⟨hc_pr, hc_disp, _hc_wn, hc_fr⟩ := waveStep_char env st inv.fr_nodup inv.disj
  have hWsub : st.directories_to_process.take max_parallel_dirs ⊆
      st.directories_to_process := List.take_subset _ _
  have hRsub : st.directories_to_process.drop max_parallel_dirs ⊆
      st.directories_to_process := List.drop_subset _ _
  have hsplit := List.take_append_drop max_parallel_dirs st.directories_to_process
  have hnd2 : (st.directories_to_process.take max_parallel_dirs ++
      st.directories_to_process.drop max_parallel_dirs).Nodup := by
    rw [hsplit]
    exact inv.fr_nodup
  rw [List.nodup_append] at hnd2
  obtain ⟨hWnd, hRnd, hWRdisj⟩ := hnd2
  have hnew : ∀ q : DirPath,
      (q ∈ (st.directories_to_process.take max_parallel_dirs).flatMap
        (fun d => (env.scan d).subdirectories.filter
          (fun s => s ∉ st.processed_directories ++
            st.directories_to_process.take max_parallel_dirs))) ↔
      (q ∈ nodes ∧ q ≠ [] ∧
        q.dropLast ∈ st.directories_to_process.take max_parallel_dirs ∧
        q ∉ st.processed_directories ++
          st.directories_to_process.take max_parallel_dirs) := by
    intro q
    simp only [List.mem_flatMap, List.mem_filter, hp', mem_children,
      decide_eq_true_eq]
    constructor
    · rintro ⟨d, hd, ⟨hqn, hqne, hqdl⟩, hnotin⟩
      exact ⟨hqn, hqne, hqdl ▸ hd, hnotin⟩
    · rintro ⟨hqn, hqne, hqdl, hnotin⟩
      exact ⟨q.dropLast, hqdl, ⟨hqn, hqne, rfl⟩, hnotin⟩
  refine ⟨?_, ?_, ?_, ?_, ?_, ?_, ?_⟩
  · -- frontier stays duplicate-free
    rw [hc_fr]
    refine List.Nodup.append hRnd ?_ ?_
    · refine List.nodup_flatMap.2 ⟨?_, ?_⟩
      · intro d _
        rw [hp' d]
        exact (children_nodup ht.nodup d).filter _
      · refine List.Pairwise.imp ?_ hWnd
        intro a b hab q hqa hqb
        simp only [hp'] at hqa hqb
        exact children_disjoint nodes hab (List.mem_of_mem_filter hqa)
          (List.mem_of_mem_filter hqb)
    · intro q hqR hqF
      have hq := (hnew q).1 hqF
      have hqfr : q ∈ st.directories_to_process := hRsub hqR
      rcases (inv.reach q hq.1).1 (Or.inr hqfr) with rfl | hpar
      · exact hq.2.1 rfl
      · exact inv.disj _ (hWsub hq.2.2.1) hpar
  · -- processed stays duplicate-free
    rw [hc_pr]
    exact inv.pr_nodup.append hWnd (fun a ha hw => inv.disj a (hWsub hw) ha)
  · -- frontier and processed stay disjoint
    rw [hc_fr, hc_pr]
    intro p hpmem
    rcases List.mem_append.mp hpmem with hpR | hpF
    · intro hpP
      rcases List.mem_append.mp hpP with hppr | hpW
      · exact inv.disj p (hRsub hpR) hppr
      · exact hWRdisj hpW hpR
    · exact ((hnew p).1 hpF).2.2.2
  · -- frontier inside the tree
    rw [hc_fr]
    intro p hpmem
    rcases List.mem_append.mp hpmem with hpR | hpF
    · exact inv.fr_sub p (hRsub hpR)
    · exact ((hnew p).1 hpF).1
  · -- processed inside the tree
    rw [hc_pr]
    intro p hpmem
    rcases List.mem_append.mp hpmem with hppr | hpW
    · exact inv.pr_sub p hppr
    · exact inv.fr_sub p (hWsub hpW)
  · -- discovery characterization
    rw [hc_fr, hc_pr]
    intro q hq
    constructor
    · rintro (hqP | hqF)
      · rcases List.mem_append.mp hqP with hqpr | hqW
        · rcases (inv.reach q hq).1 (Or.inl hqpr) with rfl | hpar
          · exact Or.inl rfl
          · exact Or.inr (List.mem_append.mpr (Or.inl hpar))
        · rcases (inv.reach q hq).1 (Or.inr (hWsub hqW)) with rfl | hpar
          · exact Or.inl rfl
          · exact Or.inr (List.mem_append.mpr (Or.inl hpar))
      · rcases List.mem_append.mp hqF with hqR | hqB
        · rcases (inv.reach q hq).1 (Or.inr (hRsub hqR)) with rfl | hpar
          · exact Or.inl rfl
          · exact Or.inr (List.mem_append.mpr (Or.inl hpar))
        · exact Or.inr (List.mem_append.mpr (Or.inr ((hnew q).1 hqB).2.2.1))
    · intro hrhs
      by_cases hq0 : q = []
      · subst hq0
        rcases (inv.reach [] hq).2 (Or.inl rfl) with hpr0 | hfr0
        · exact Or.inl (List.mem_append.mpr (Or.inl hpr0))
        · rw [← hsplit] at hfr0
          rcases List.mem_append.mp hfr0 with h | h
          · exact Or.inl (List.mem_append.mpr (Or.inr h))
          · exact Or.inr (List.mem_append.mpr (Or.inl h))
      · rcases hrhs with rfl | hpar
        · exact absurd rfl hq0
        · rcases List.mem_append.mp hpar with hppr | hpW
          · rcases (inv.reach q hq).2 (Or.inr hppr) with hqpr | hqfr
            · exact Or.inl (List.mem_append.mpr (Or.inl hqpr))
            · rw [← hsplit] at hqfr
              rcases List.mem_append.mp hqfr with h | h
              · exact Or.inl (List.mem_append.mpr (Or.inr h))
              · exact Or.inr (List.mem_append.mpr (Or.inl h))
          · by_cases hqP : q ∈ st.processed_directories ++
                st.directories_to_process.take max_parallel_dirs
            · exact Or.inl hqP
            · exact Or.inr (List.mem_append.mpr
                (Or.inr ((hnew q).2 ⟨hq, hq0, hpW, hqP⟩)))
  · -- dispatch trace mirrors the processed list
    rw [hc_disp, hc_pr, inv.disp]

/-- A nonempty frontier makes strict progress: the processed list grows. -/
theorem waveStep_progress {R : Type} {nodes : List DirPath} (env : ShareEnv R)
    {st : ShareState R} (inv : WaveInv nodes st)
    (hne : st.directories_to_process ≠ []) :
    st.processed_directories.length < (waveStep env st).processed_directories.length := by
  obtain ⟨hc_pr, _, _, _⟩ := waveStep_char env st inv.fr_nodup inv.disj
  rw [hc_pr, List.length_append, List.length_take]
  have hpos : 0 < st.directories_to_process.length := List.length_pos.mpr hne
  have : 0 < max_parallel_dirs := by decide
  omega

/-- The processed list never exceeds the tree size. -/
theorem processed_length_le {R : Type} {nodes : List DirPath}
    {st : ShareState R} (inv : WaveInv nodes st) :
    st.processed_directories.length ≤ nodes.length :=
  (inv.pr_nodup.subperm inv.pr_sub).length_le

/-- Termination: with fuel at least the number of still-unprocessed tree
nodes, the wave loop drains the frontier, and the invariant holds at the
end. -/
theorem runWaves_tree_complete {R : Type} {nodes : List DirPath}
    {env : ShareEnv R} (ht : IsTree nodes) (hp : PresentsTree env nodes) :
    ∀ (fuel : Nat) (st : ShareState R), WaveInv nodes st →
      nodes.length - st.processed_directories.length ≤ fuel →
      (runWaves env fuel st).directories_to_process = [] ∧
        WaveInv nodes (runWaves env fuel st) := by
  intro fuel
  induction fuel with
  | zero =>
      intro st inv hle
      by_cases hfr : st.directories_to_process = []
      · exact ⟨hfr, inv⟩
      · exfalso
        obtain ⟨q, hq⟩ := List.exists_mem_of_ne_nil _ hfr
        have h1 : (st.processed_directories ++ [q]).Nodup :=
          inv.pr_nodup.append (List.nodup_singleton q)
            (fun a ha hb => by
              rw [List.mem_singleton] at hb
              subst hb
              exact inv.disj a hq ha)
        have h2 : st.processed_directories ++ [q] ⊆ nodes := by
          intro a ha
          rcases List.mem_append.mp ha with h | h
          · exact inv.pr_sub a h
          · rw [List.mem_singleton] at h
            rw [h]
            exact inv.fr_sub q hq
        have h3 := (h1.subperm h2).length_le
        rw [List.length_append, List.length_singleton] at h3
        omega
  | succ fuel ih =>
      intro st inv hle
      by_cases hfr : st.directories_to_process = []
      · rw [runWaves, if_pos hfr]
        exact ⟨hfr, inv⟩
      · have inv' := waveInv_step ht hp inv
        have hprog := waveStep_progress env inv hfr
        have hbound := processed_length_le inv'
        have hres := ih (waveStep env st) inv' (by omega)
        rw [runWaves, if_neg hfr]
        exact hres

/-- When the frontier has drained, every tree node has been processed. -/
theorem waveInv_complete {R : Type} {nodes : List DirPath}
    {st : ShareState R} (ht : IsTree nodes) (inv : WaveInv nodes st)
    (hfr : st.directories_to_process = []) :
    ∀ q ∈ nodes, q ∈ st.processed_directories := by
  have main : ∀ (n : Nat) (q : DirPath), q ∈ nodes → q.length ≤ n →
      q ∈ st.processed_directories := by
    intro n
    induction n with
    | zero =>
        intro q hq hlen
        have hq0 : q = [] := by
          cases q with
          | nil => rfl
          | cons a t => simp at hlen
        subst hq0
        rcases (inv.reach [] hq).2 (Or.inl rfl) with h | h
        · exact h
        · rw [hfr] at h
          cases h
    | succ n ih =>
        intro q hq hlen
        by_cases hq0 : q = []
        · subst hq0
          rcases (inv.reach [] hq).2 (Or.inl rfl) with h | h
          · exact h
          · rw [hfr] at h
            cases h
        · have hpar : q.dropLast ∈ nodes := ht.parent_mem q hq hq0
          have hqpos : 0 < q.length := List.length_pos.mpr hq0
          have hplen : q.dropLast.length ≤ n := by
            rw [List.length_dropLast]
            omega
          have hppr := ih q.dropLast hpar hplen
          rcases (inv.reach q hq).2 (Or.inr hppr) with h | h
          · exact h
          · rw [hfr] at h
            cases h
  exact fun q hq => main q.length q hq le_rfl

/-- At drain time the processed list is a permutation of the node list. -/
theorem processed_perm_nodes {R : Type} {nodes : List DirPath}
    {st : ShareState R} (ht : IsTree nodes) (inv : WaveInv nodes st)
    (hfr : st.directories_to_process = []) :
    st.processed_directories.Perm nodes :=
  (inv.pr_nodup.subperm inv.pr_sub).antisymm
    (ht.nodup.subperm (waveInv_complete ht inv hfr))

/-! #### Level invariant: one wave per level when the tree is narrow -/

/-- Before wave `i+1` of a narrow tree, the frontier is exactly level `i`
and the processed set is exactly the levels above it. -/
def LevelInv {R : Type} (nodes : List DirPath) (st : ShareState R) (i : Nat) : Prop :=
  (∀ q, q ∈ st.directories_to_process ↔ q ∈ nodes ∧ q.length = i) ∧
  (∀ q, q ∈ st.processed_directories ↔ q ∈ nodes ∧ q.length < i) ∧
  st.wave_number = i

theorem levelInv_init {R : Type} (nodes : List DirPath) (ht : IsTree nodes) :
    LevelInv nodes (initShareState R) 0 := by
  refine ⟨?_, ?_, rfl⟩
  · intro q
    simp only [initShareState, List.mem_singleton]
    constructor
    · rintro rfl
      exact ⟨ht.root_mem, rfl⟩
    · rintro ⟨_, hlen⟩
      exact List.length_eq_zero.mp hlen
  · intro q
    simp [initShareState]

theorem levelInv_step {R : Type} {nodes : List DirPath} {env : ShareEnv R}
    {st : ShareState R} {i : Nat} (ht : IsTree nodes)
    (hp : PresentsTree env nodes) (inv : WaveInv nodes st)
    (lv : LevelInv nodes st i)
    (hwidth : ∀ k, (treeLevel nodes k).length ≤ max_parallel_dirs) :
    LevelInv nodes (waveStep env st) (i + 1) := by
  have hp' : ∀ p, (env.scan p).subdirectories = children nodes p := hp
  obtain ⟨hc_pr, _hc_disp, hc_wn, hc_fr⟩ := waveStep_char env st inv.fr_nodup inv.disj
  have hfr_sub_level : st.directories_to_process ⊆ treeLevel nodes i := by
    intro q hq
    have h := (lv.1 q).1 hq
    simp [treeLevel, List.mem_filter, h.1, h.2]
  have hlen : st.directories_to_process.length ≤ max_parallel_dirs :=
    le_trans (inv.fr_nodup.subperm hfr_sub_level).length_le (hwidth i)
  have htake : st.directories_to_process.take max_parallel_dirs
      = st.directories_to_process := List.take_of_length_le hlen
  have hdrop : st.directories_to_process.drop max_parallel_dirs = [] :=
    List.drop_eq_nil_of_le hlen
  refine ⟨?_, ?_, ?_⟩
  · intro q
    rw [hc_fr, htake, hdrop]
    simp only [List.nil_append, List.mem_flatMap, List.mem_filter, hp',
      mem_children, decide_eq_true_eq]
    constructor
    · rintro ⟨d, hd, ⟨hqn, hqne, hqdl⟩, _hnot⟩
      have hdl := (lv.1 d).1 hd
      have hqpos : 0 < q.length := List.length_pos.mpr hqne
      have hdll : q.dropLast.length = q.length - 1 := List.length_dropLast q
      refine ⟨hqn, ?_⟩
      rw [hqdl] at hdll
      omega
    · rintro ⟨hqn, hqlen⟩
      have hqne : q ≠ [] := by
        intro h
        subst h
        simp at hqlen
      have hpar : q.dropLast ∈ nodes := ht.parent_mem q hqn hqne
      have hqpos : 0 < q.length := List.length_pos.mpr hqne
      have hparlen : q.dropLast.length = i := by
        rw [List.length_dropLast]
        omega
      have hd : q.dropLast ∈ st.directories_to_process := (lv.1 _).2 ⟨hpar, hparlen⟩
      refine ⟨q.dropLast, hd, ⟨hqn, hqne, rfl⟩, ?_⟩
      intro hmem
      rcases List.mem_append.mp hmem with h | h
      · have := (lv.2.1 q).1 h
        omega
      · have := (lv.1 q).1 (htake ▸ h)
        omega
  · intro q
    rw [hc_pr, htake]
    simp only [List.mem_append]
    constructor
    · rintro (h | h)
      · have := (lv.2.1 q).1 h
        exact ⟨this.1, by omega⟩
      · have := (lv.1 q).1 h
        exact ⟨this.1, by omega⟩
    · rintro ⟨hqn, hqlen⟩
      by_cases hlt : q.length < i
      · exact Or.inl ((lv.2.1 q).2 ⟨hqn, hlt⟩)
      · have heq : q.length = i := by omega
        exact Or.inr ((lv.1 q).2 ⟨hqn, heq⟩)
  · rw [hc_wn, lv.2.2]

/-- For a narrow tree (every level fits in one wave) the loop never runs
more waves than the tree has levels. -/
theorem runWaves_wave_bound {R : Type} {nodes : List DirPath}
    {env : ShareEnv R} (ht : IsTree nodes) (hp : PresentsTree env nodes)
    (hwidth : ∀ k, (treeLevel nodes k).length ≤ max_parallel_dirs) :
    ∀ (fuel : Nat) (st : ShareState R) (i : Nat), WaveInv nodes st →
      LevelInv nodes st i → i ≤ treeDepth nodes →
      (runWaves env fuel st).wave_number ≤ treeDepth nodes := by
  intro fuel
  induction fuel with
  | zero =>
      intro st i inv lv hi
      show st.wave_number ≤ treeDepth nodes
      rw [lv.2.2]
      exact hi
  | succ fuel ih =>
      intro st i inv lv hi
      by_cases hfr : st.directories_to_process = []
      · rw [runWaves, if_pos hfr]
        rw [lv.2.2]
        exact hi
      · obtain ⟨q, hq⟩ := List.exists_mem_of_ne_nil _ hfr
        have hqq := (lv.1 q).1 hq
        have hdep : i < treeDepth nodes := hqq.2 ▸ length_lt_treeDepth hqq.1
        rw [runWaves, if_neg hfr]
        exact ih (waveStep env st) (i + 1) (waveInv_step ht hp inv)
          (levelInv_step ht hp inv lv hwidth) (by omega)

/-- The final flush leaves the traversal components untouched. -/
theorem finalFlush_stable {R : Type} (env : ShareEnv R) (st : ShareState R) :
    (finalFlush env st).directories_to_process = st.directories_to_process ∧
    (finalFlush env st).processed_directories = st.processed_directories ∧
    (finalFlush env st).dispatched = st.dispatched ∧
    (finalFlush env st).wave_number = st.wave_number ∧
    (finalFlush env st).all_errors = st.all_errors ∧
    (finalFlush env st).total_files_processed = st.total_files_processed ∧
    (finalFlush env st).total_bytes_processed = st.total_bytes_processed := by
  unfold finalFlush
  split <;> exact ⟨rfl, rfl, rfl, rfl, rfl, rfl, rfl⟩

theorem count_eq_one_of_nodup_mem {l : List DirPath} {p : DirPath}
    (h : l.Nodup) (hm : p ∈ l) : l.count p = 1 := by
  induction l with
  | nil => cases hm
  | cons a t ih =>
      rcases List.mem_cons.mp hm with rfl | hm'
      · have h0 : t.count p = 0 := by
          rw [List.count_eq_zero]
          exact (List.nodup_cons.mp h).1
        simp [List.count_cons, h0]
      · have ha : p ≠ a := by
          intro he
          subst he
          exact (List.nodup_cons.mp h).1 hm'
        have h1 : t.count p = 1 := ih (List.nodup_cons.mp h).2 hm'
        simp [List.count_cons, h1, ha]

/-- C1: for every finite, cycle-free directory tree presented by the
storage collaborator, the per-share wave loop drains its frontier within
`nodes.length` waves of fuel; every directory of the tree is dispatched
to the scan activity exactly once (the dispatch trace is duplicate-free
and covers exactly the tree); the reported `directories_processed`
equals the number of distinct directories; and when every level fits in
`max_parallel_dirs` the number of waves is at most the tree depth. -/
theorem c1_wave_scheduler_tree (R : Type) (env : ShareEnv R)
    (nodes : List DirPath) (ht : IsTree nodes) (hpres : PresentsTree env nodes)
    (fuel clock : Nat) (hfuel : nodes.length ≤ fuel) :
    ((orchestrator_file_share env fuel clock).2.directories_to_process = [] ∧
      (orchestrator_file_share env fuel clock).2.dispatched.Nodup ∧
      (∀ p, p ∈ (orchestrator_file_share env fuel clock).2.dispatched ↔ p ∈ nodes) ∧
      (∀ p ∈ nodes,
        (orchestrator_file_share env fuel clock).2.dispatched.count p = 1) ∧
      (orchestrator_file_share env fuel clock).1.directories_processed
        = nodes.length) ∧
    ((∀ k, (treeLevel nodes k).length ≤ max_parallel_dirs) →
      (orchestrator_file_share env fuel clock).1.waves_completed
        ≤ treeDepth nodes) := by
  have hinit : WaveInv nodes (initShareState R) := waveInv_init nodes ht
  have hle : nodes.length - (initShareState R).processed_directories.length ≤ fuel := by
    simp only [initShareState, List.length_nil, Nat.sub_zero]
    exact hfuel
  obtain ⟨hfr, hinv⟩ := runWaves_tree_complete ht hpres fuel _ hinit hle
  have hperm := processed_perm_nodes ht hinv hfr
  obtain ⟨hs_fr, hs_pr, hs_disp, hs_wn, _, _, _⟩ :=
    finalFlush_stable env (runWaves env fuel (initShareState R))
  constructor
  · refine ⟨?_, ?_, ?_, ?_, ?_⟩
    · show (finalFlush env (runWaves env fuel (initShareState R))).directories_to_process = []
      rw [hs_fr]
      exact hfr
    · show (finalFlush env (runWaves env fuel (initShareState R))).dispatched.Nodup
      rw [hs_disp, hinv.disp]
      exact hinv.pr_nodup
    · intro p
      show p ∈ (finalFlush env (runWaves env fuel (initShareState R))).dispatched ↔ _
      rw [hs_disp, hinv.disp]
      exact hperm.mem_iff
    · intro p hpn
      show (finalFlush env (runWaves env fuel (initShareState R))).dispatched.count p = 1
      rw [hs_disp, hinv.disp]
      exact count_eq_one_of_nodup_mem hinv.pr_nodup (hperm.mem_iff.mpr hpn)
    · show (finalFlush env (runWaves env fuel (initShareState R))).processed_directories.length
          = nodes.length
      rw [hs_pr]
      exact hperm.length_eq
  · intro hwidth
    show (finalFlush env (runWaves env fuel (initShareState R))).wave_number ≤ _
    rw [hs_wn]
    exact runWaves_wave_bound ht hpres hwidth fuel _ 0 hinit
      (levelInv_init nodes ht) (Nat.zero_le _)

/-- A four-node concrete tree: root, two children, one grandchild. -/
def c1TreeW : List DirPath := [[], [0], [1], [0, 0]]

/-- A storage collaborator presenting `c1TreeW`, with no file records. -/
def c1EnvW : ShareEnv Nat :=
  { scan := fun p => ⟨children c1TreeW p, [], 0, 0, []⟩
    sendOk := fun _ => true
    batch_size := 500 }

theorem c1_wave_scheduler_tree_witness :
    c1TreeW.length ≤ 4 ∧
      (orchestrator_file_share c1EnvW 4 0).1.directories_processed
        = c1TreeW.length :=
  ⟨by decide,
    (c1_wave_scheduler_tree Nat c1EnvW c1TreeW
      ⟨by decide, by decide, by decide⟩ (fun _ => rfl) 4 0 (by decide)).1.2.2.2.2⟩

/-! #### C3: a dequeued path is never re-enqueued -/

/-- Generic field characterization of one `waveStep` (no tree
assumptions: the dequeue loop may skip stale duplicates). -/
theorem waveStep_fields {R : Type} (env : ShareEnv R) (st : ShareState R) :
    (waveStep env st).processed_directories =
      (takeWave max_parallel_dirs st.directories_to_process []
        st.processed_directories).2.2 ∧
    (waveStep env st).directories_to_process =
      (takeWave max_parallel_dirs st.directories_to_process []
          st.processed_directories).2.1 ++
        ((takeWave max_parallel_dirs st.directories_to_process []
            st.processed_directories).1).flatMap
          (fun d => (env.scan d).subdirectories.filter
            (fun s => s ∉ (takeWave max_parallel_dirs st.directories_to_process []
              st.processed_directories).2.2)) := by
  unfold waveStep
  refine ⟨(foldl_foldResult_stable env _ _).1, ?_⟩
  rw [foldl_foldResult_frontier, List.flatMap_map]

/-- Once a path is in the processed set, a wave keeps it there and never
adds an occurrence of it to the frontier. -/
theorem waveStep_once_dequeued {R : Type} (env : ShareEnv R)
    (st : ShareState R) (p : DirPath) (hp : p ∈ st.processed_directories) :
    p ∈ (waveStep env st).processed_directories ∧
    (waveStep env st).directories_to_process.count p ≤
      st.directories_to_process.count p := by
  obtain ⟨hf_pr, hf_fr⟩ := waveStep_fields env st
  obtain ⟨w, _hw1, hw2⟩ := takeWave_spec max_parallel_dirs
    st.directories_to_process [] st.processed_directories
  have hcnt := takeWave_frontier_count max_parallel_dirs p
    st.directories_to_process [] st.processed_directories
  have hpmem : p ∈ (takeWave max_parallel_dirs st.directories_to_process []
      st.processed_directories).2.2 := by
    rw [hw2]
    exact List.mem_append.mpr (Or.inl hp)
  constructor
  · rw [hf_pr]
    exact hpmem
  · rw [hf_fr, List.count_append]
    have hzero : (((takeWave max_parallel_dirs st.directories_to_process []
        st.processed_directories).1).flatMap
          (fun d => (env.scan d).subdirectories.filter
            (fun s => s ∉ (takeWave max_parallel_dirs st.directories_to_process []
              st.processed_directories).2.2))).count p = 0 := by
      rw [List.count_eq_zero]
      intro hmem
      rw [List.mem_flatMap] at hmem
      obtain ⟨d, _, hmem2⟩ := hmem
      rw [List.mem_filter] at hmem2
      exact (of_decide_eq_true hmem2.2) hpmem
    omega

/-- The wave loop never re-enqueues a dequeued path: processed
membership persists and frontier occurrences never increase. -/
theorem runWaves_once_dequeued {R : Type} (env : ShareEnv R) (p : DirPath) :
    ∀ (fuel : Nat) (st : ShareState R), p ∈ st.processed_directories →
      p ∈ (runWaves env fuel st).processed_directories ∧
      (runWaves env fuel st).directories_to_process.count p ≤
        st.directories_to_process.count p := by
  intro fuel
  induction fuel with
  | zero => intro st hp; exact ⟨hp, le_rfl⟩
  | succ fuel ih =>
      intro st hp
      by_cases hfr : st.directories_to_process = []
      · rw [runWaves, if_pos hfr]
        exact ⟨hp, le_rfl⟩
      · rw [runWaves, if_neg hfr]
        obtain ⟨h1, h2⟩ := waveStep_once_dequeued env st p hp
        obtain ⟨h3, h4⟩ := ih (waveStep env st) h1
        exact ⟨h3, le_trans h4 h2⟩

/-- C3 (amended): once a path has been dequeued (it is in the processed
set), later scan results never re-enqueue it — it stays processed, the
number of its occurrences in the frontier never increases, and if it is
currently absent from the frontier it never appears there again.  (The
original claim fails only for occurrences enqueued *before* the dequeue:
see the counterexample.) -/
theorem c3_no_reenqueue_after_dequeue (R : Type) (env : ShareEnv R)
    (p : DirPath) (fuel : Nat) (st : ShareState R)
    (hp : p ∈ st.processed_directories) :
    p ∈ (runWaves env fuel st).processed_directories ∧
    (runWaves env fuel st).directories_to_process.count p ≤
      st.directories_to_process.count p ∧
    (p ∉ st.directories_to_process →
      p ∉ (runWaves env fuel st).directories_to_process) := by
  obtain ⟨h1, h2⟩ := runWaves_once_dequeued env p fuel st hp
  refine ⟨h1, h2, ?_⟩
  intro hnot
  have h0 : st.directories_to_process.count p = 0 := List.count_eq_zero.mpr hnot
  have h5 : (runWaves env fuel st).directories_to_process.count p = 0 := by omega
  exact List.count_eq_zero.mp h5

/-- A storage collaborator that reports the same subdirectory twice for
the root (duplicate discovery), enough siblings to fill wave 2. -/
def c3Env : ShareEnv Nat :=
  { scan := fun p =>
      if p = [] then
        ⟨[[1], [2], [3], [4], [5], [6], [7], [8], [9], [10], [10]], [], 0, 0, []⟩
      else ⟨[], [], 0, 0, []⟩
    sendOk := fun _ => true
    batch_size := 500 }

/-- C3 counterexample: after two waves over `c3Env`, path `[10]` has been
dispatched and marked processed, yet a stale duplicate of it — enqueued
before its dequeue — still sits in the frontier: a path *can* appear in
the frontier after it has been dequeued once. -/
theorem c3_counterexample :
    [10] ∈ (runWaves c3Env 2 (initShareState Nat)).processed_directories ∧
    [10] ∈ (runWaves c3Env 2 (initShareState Nat)).dispatched ∧
    [10] ∈ (runWaves c3Env 2 (initShareState Nat)).directories_to_process := by
  decide

theorem c3_no_reenqueue_after_dequeue_witness :
    [10] ∈ (runWaves c3Env 2 (initShareState Nat)).processed_directories ∧
    [10] ∈ (runWaves c3Env 1 (runWaves c3Env 2 (initShareState Nat))).processed_directories :=
  ⟨by decide,
    (c3_no_reenqueue_after_dequeue Nat c3Env [10] 1
      (runWaves c3Env 2 (initShareState Nat)) (by decide)).1⟩

/-! #### C2: batch exactness -/

/-- With enough iterations, the send loop leaves fewer than `B` pending
records, emits only size-`B` batches, and conserves records (sum of
emitted batch lengths plus remainder). -/
theorem drainGo_spec {R : Type} (f : Nat → Bool) (B : Nat) :
    ∀ (n : Nat) (pending : List R) (bs : Nat) (sends : List (List R)),
      pending.length ≤ n →
      ((∀ b ∈ (drainGo f B n pending bs sends).2.2, b ∈ sends ∨ b.length = B) ∧
       ((drainGo f B n pending bs sends).2.2.map List.length).sum +
           (drainGo f B n pending bs sends).1.length
         = (sends.map List.length).sum + pending.length ∧
       (0 < B → (drainGo f B n pending bs sends).1.length < B)) := by
  intro n
  induction n with
  | zero =>
      intro pending bs sends hlen
      have hpe : pending.length = 0 := Nat.le_zero.mp hlen
      refine ⟨fun b hb => Or.inl hb, by simp [drainGo, hpe], fun hB => ?_⟩
      simp only [drainGo]
      omega
  | succ n ih =>
      intro pending bs sends hlen
      by_cases hg : 0 < B ∧ B ≤ pending.length
      · have hd : drainGo f B (n + 1) pending bs sends =
            drainGo f B n (pending.drop B)
              (if f sends.length then bs + 1 else bs)
              (sends ++ [pending.take B]) := by
          simp only [drainGo]
          rw [if_pos hg]
        have hlen' : (pending.drop B).length ≤ n := by
          rw [List.length_drop]
          omega
        obtain ⟨ih1, ih2, ih3⟩ := ih (pending.drop B)
          (if f sends.length then bs + 1 else bs)
          (sends ++ [pending.take B]) hlen'
        rw [List.map_append, List.sum_append, List.length_drop] at ih2
        simp only [List.map_cons, List.map_nil, List.sum_cons, List.sum_nil,
          List.length_take] at ih2
        rw [hd]
        refine ⟨?_, ?_, ih3⟩
        · intro b hb
          rcases ih1 b hb with hmem | hlen2
          · rcases List.mem_append.mp hmem with h | h
            · exact Or.inl h
            · right
              rw [List.mem_singleton] at h
              subst h
              rw [List.length_take]
              omega
          · exact Or.inr hlen2
        · omega
      · have hd : drainGo f B (n + 1) pending bs sends = (pending, bs, sends) := by
          simp only [drainGo]
          rw [if_neg hg]
        rw [hd]
        refine ⟨fun b hb => Or.inl hb, rfl, fun hB => ?_⟩
        show pending.length < B
        omega

theorem drainLoop_spec {R : Type} (f : Nat → Bool) (B : Nat)
    (pending : List R) (bs : Nat) (sends : List (List R)) :
    (∀ b ∈ (drainLoop f B pending bs sends).2.2, b ∈ sends ∨ b.length = B) ∧
    ((drainLoop f B pending bs sends).2.2.map List.length).sum +
        (drainLoop f B pending bs sends).1.length
      = (sends.map List.length).sum + pending.length ∧
    (0 < B → (drainLoop f B pending bs sends).1.length < B) :=
  drainGo_spec f B pending.length pending bs sends le_rfl

/-- The batching invariant at wave boundaries: all emitted batches are
size-exact, the pending remainder is short, and total emitted + pending
records equal the records of all dispatched directories. -/
def BatchInv {R : Type} (env : ShareEnv R) (st : ShareState R) : Prop :=
  (∀ b ∈ st.sends, b.length = env.batch_size) ∧
  st.current_batch.length < env.batch_size ∧
  ((st.sends.map List.length).sum + st.current_batch.length
    = (st.dispatched.map (fun d => (env.scan d).file_records.length)).sum)

theorem foldResult_batch {R : Type} (env : ShareEnv R) (st : ShareState R)
    (res : ScanRes R)
    (hall : ∀ b ∈ st.sends, b.length = env.batch_size) :
    (∀ b ∈ (foldResult env st res).sends, b.length = env.batch_size) ∧
    (((foldResult env st res).sends.map List.length).sum +
        (foldResult env st res).current_batch.length
      = (st.sends.map List.length).sum + st.current_batch.length +
          res.file_records.length) ∧
    (0 < env.batch_size →
      (foldResult env st res).current_batch.length < env.batch_size) := by
  obtain ⟨h1, h2, h3⟩ := drainLoop_spec env.sendOk env.batch_size
    (st.current_batch ++ res.file_records) st.total_batches_sent st.sends
  refine ⟨?_, ?_, h3⟩
  · intro b hb
    rcases h1 b hb with h | h
    · exact hall b h
    · exact h
  · rw [List.length_append] at h2
    show ((drainLoop env.sendOk env.batch_size
        (st.current_batch ++ res.file_records) st.total_batches_sent
        st.sends).2.2.map List.length).sum +
      (drainLoop env.sendOk env.batch_size
        (st.current_batch ++ res.file_records) st.total_batches_sent
        st.sends).1.length = _
    omega

theorem foldl_foldResult_batch {R : Type} (env : ShareEnv R)
    (hB : 0 < env.batch_size) :
    ∀ (results : List (ScanRes R)) (st : ShareState R),
      (∀ b ∈ st.sends, b.length = env.batch_size) →
      st.current_batch.length < env.batch_size →
      ((∀ b ∈ (results.foldl (foldResult env) st).sends,
          b.length = env.batch_size) ∧
       (results.foldl (foldResult env) st).current_batch.length
          < env.batch_size ∧
       (((results.foldl (foldResult env) st).sends.map List.length).sum +
           (results.foldl (foldResult env) st).current_batch.length
         = (st.sends.map List.length).sum + st.current_batch.length +
             (results.map (fun r => r.file_records.length)).sum)) := by
  intro results
  induction results with
  | nil =>
      intro st hall hcur
      exact ⟨hall, hcur, by simp⟩
  | cons r rs ih =>
      intro st hall hcur
      obtain ⟨f1, f2, f3⟩ := foldResult_batch env st r hall
      obtain ⟨g1, g2, g3⟩ := ih (foldResult env st r) f1 (f3 hB)
      rw [List.foldl_cons]
      refine ⟨g1, g2, ?_⟩
      rw [g3]
      have f4 := (foldResult_batch env st r hall).2.1
      rw [List.map_cons, List.sum_cons]
      omega

/-- The dequeue result of a wave, and the intermediate state between
the dequeue and the result fold (named for reuse in proofs). -/
def waveTaken {R : Type} (st : ShareState R) :
    List DirPath × List DirPath × List DirPath :=
  takeWave max_parallel_dirs st.directories_to_process [] st.processed_directories

def waveMid {R : Type} (st : ShareState R) : ShareState R :=
  { st with
    wave_number := st.wave_number + 1
    directories_to_process := (waveTaken st).2.1
    processed_directories := (waveTaken st).2.2
    dispatched := st.dispatched ++ (waveTaken st).1 }

theorem waveStep_eq {R : Type} (env : ShareEnv R) (st : ShareState R) :
    waveStep env st =
      (((waveTaken st).1).map env.scan).foldl (foldResult env) (waveMid st) := rfl

theorem waveStep_batchInv {R : Type} (env : ShareEnv R)
    (hB : 0 < env.batch_size) (st : ShareState R) (inv : BatchInv env st) :
    BatchInv env (waveStep env st) := by
  obtain ⟨hall, hcur, hsum⟩ := inv
  obtain ⟨g1, g2, g3⟩ := foldl_foldResult_batch env hB
    (((waveTaken st).1).map env.scan) (waveMid st) hall hcur
  rw [waveStep_eq]
  refine ⟨g1, g2, ?_⟩
  rw [g3, (foldl_foldResult_stable env _ _).2.1]
  have w1 : (waveMid st).sends = st.sends := rfl
  have w2 : (waveMid st).current_batch = st.current_batch := rfl
  have w3 : (waveMid st).dispatched = st.dispatched ++ (waveTaken st).1 := rfl
  rw [w1, w2, w3]
  simp only [List.map_map, List.map_append, List.sum_append, Function.comp_def]
  omega

theorem batchInv_init {R : Type} (env : ShareEnv R) (hB : 0 < env.batch_size) :
    BatchInv env (initShareState R) := by
  refine ⟨?_, ?_, ?_⟩
  · intro b hb
    simp [initShareState] at hb
  · simpa [initShareState] using hB
  · simp [initShareState]

theorem runWaves_batchInv {R : Type} (env : ShareEnv R)
    (hB : 0 < env.batch_size) :
    ∀ (fuel : Nat) (st : ShareState R), BatchInv env st →
      BatchInv env (runWaves env fuel st) := by
  intro fuel
  induction fuel with
  | zero => intro st inv; exact inv
  | succ fuel ih =>
      intro st inv
      by_cases hfr : st.directories_to_process = []
      · rw [runWaves, if_pos hfr]
        exact inv
      · rw [runWaves, if_neg hfr]
        exact ih _ (waveStep_batchInv env hB st inv)

theorem sum_map_length_eq {R : Type} (B : Nat) (l : List (List R))
    (h : ∀ b ∈ l, b.length = B) : (l.map List.length).sum = B * l.length := by
  induction l with
  | nil => simp
  | cons a t ih =>
      rw [List.map_cons, List.sum_cons, List.length_cons,
        h a (List.mem_cons_self a t),
        ih (fun b hb => h b (List.mem_cons_of_mem a hb)), Nat.mul_succ]
      exact Nat.add_comm B _

/-- C2: for any recorded scan results and any batch size B > 0, every
batch handed to the delivery activity inside the wave loop has length
exactly B; with N the total record count of all dispatched directories,
the pending remainder at loop exit has length N mod B, and the final
flush hands over exactly that remainder when N mod B ≠ 0 and nothing
when N mod B = 0. -/
theorem c2_batch_exactness (R : Type) (env : ShareEnv R) (fuel : Nat)
    (hB : 0 < env.batch_size) :
    (∀ b ∈ (runWaves env fuel (initShareState R)).sends,
        b.length = env.batch_size) ∧
    ((runWaves env fuel (initShareState R)).current_batch.length =
      ((runWaves env fuel (initShareState R)).dispatched.map
        (fun d => (env.scan d).file_records.length)).sum % env.batch_size) ∧
    (((runWaves env fuel (initShareState R)).dispatched.map
        (fun d => (env.scan d).file_records.length)).sum % env.batch_size = 0 →
      (finalFlush env (runWaves env fuel (initShareState R))).sends
        = (runWaves env fuel (initShareState R)).sends) ∧
    (((runWaves env fuel (initShareState R)).dispatched.map
        (fun d => (env.scan d).file_records.length)).sum % env.batch_size ≠ 0 →
      (finalFlush env (runWaves env fuel (initShareState R))).sends
        = (runWaves env fuel (initShareState R)).sends ++
            [(runWaves env fuel (initShareState R)).current_batch]) := by
  obtain ⟨hall, hcur, hsum⟩ :=
    runWaves_batchInv env hB fuel _ (batchInv_init env hB)
  have hsum2 := sum_map_length_eq env.batch_size
    (runWaves env fuel (initShareState R)).sends hall
  have hmod : ((runWaves env fuel (initShareState R)).dispatched.map
      (fun d => (env.scan d).file_records.length)).sum % env.batch_size
      = (runWaves env fuel (initShareState R)).current_batch.length := by
    rw [← hsum, hsum2, Nat.mul_add_mod]
    exact Nat.mod_eq_of_lt hcur
  refine ⟨hall, hmod.symm, ?_, ?_⟩
  · intro h0
    have hlen : (runWaves env fuel (initShareState R)).current_batch.length = 0 := by
      omega
    have hnil : (runWaves env fuel (initShareState R)).current_batch = [] :=
      List.length_eq_zero.mp hlen
    simp [finalFlush, hnil]
  · intro hne
    have hlen : (runWaves env fuel (initShareState R)).current_batch.length ≠ 0 := by
      omega
    have hnnil : ¬ (runWaves env fuel (initShareState R)).current_batch.isEmpty := by
      rw [List.isEmpty_iff]
      intro h
      exact hlen (by rw [h]; rfl)
    simp [finalFlush, hnnil]

/-- A share with one directory holding three records, batch size 2. -/
def c2EnvW : ShareEnv Nat :=
  { scan := fun p => if p = [] then ⟨[], [1, 2, 3], 3, 0, []⟩ else ⟨[], [], 0, 0, []⟩
    sendOk := fun _ => true
    batch_size := 2 }

theorem c2_batch_exactness_witness :
    0 < c2EnvW.batch_size ∧
      (finalFlush c2EnvW (runWaves c2EnvW 1 (initShareState Nat))).sends
        = (runWaves c2EnvW 1 (initShareState Nat)).sends ++
            [(runWaves c2EnvW 1 (initShareState Nat)).current_batch] :=
  ⟨by decide,
    (c2_batch_exactness Nat c2EnvW 1 (by decide)).2.2.2 (by decide)⟩

/-! #### C4: delivery failures are silently dropped -/

/-- The send loop's pending remainder and send trace do not depend on
the delivery outcomes or on the running success counter: a failed batch
is neither retried nor re-queued, and leaves no other trace. -/
theorem drainGo_indep {R : Type} (f g : Nat → Bool) (B : Nat) :
    ∀ (n : Nat) (pending : List R) (bs bs' : Nat) (sends : List (List R)),
      (drainGo f B n pending bs sends).1 = (drainGo g B n pending bs' sends).1 ∧
      (drainGo f B n pending bs sends).2.2 = (drainGo g B n pending bs' sends).2.2 := by
  intro n
  induction n with
  | zero => intro pending bs bs' sends; exact ⟨rfl, rfl⟩
  | succ n ih =>
      intro pending bs bs' sends
      by_cases hg : 0 < B ∧ B ≤ pending.length
      · have hd1 : drainGo f B (n + 1) pending bs sends =
            drainGo f B n (pending.drop B)
              (if f sends.length then bs + 1 else bs)
              (sends ++ [pending.take B]) := by
          simp only [drainGo]
          rw [if_pos hg]
        have hd2 : drainGo g B (n + 1) pending bs' sends =
            drainGo g B n (pending.drop B)
              (if g sends.length then bs' + 1 else bs')
              (sends ++ [pending.take B]) := by
          simp only [drainGo]
          rw [if_pos hg]
        rw [hd1, hd2]
        exact ih (pending.drop B) _ _ (sends ++ [pending.take B])
      · have hd1 : drainGo f B (n + 1) pending bs sends = (pending, bs, sends) := by
          simp only [drainGo]
          rw [if_neg hg]
        have hd2 : drainGo g B (n + 1) pending bs' sends = (pending, bs', sends) := by
          simp only [drainGo]
          rw [if_neg hg]
        rw [hd1, hd2]
        exact ⟨rfl, rfl⟩

/-- Two states that agree on everything except the batches-sent counter. -/
def EqExceptBatches {R : Type} (st st' : ShareState R) : Prop :=
  st.total_files_processed = st'.total_files_processed ∧
  st.total_bytes_processed = st'.total_bytes_processed ∧
  st.all_errors = st'.all_errors ∧
  st.current_batch = st'.current_batch ∧
  st.directories_to_process = st'.directories_to_process ∧
  st.processed_directories = st'.processed_directories ∧
  st.wave_number = st'.wave_number ∧
  st.dispatched = st'.dispatched ∧
  st.sends = st'.sends

theorem foldResult_indep {R : Type} (env : ShareEnv R) (g : Nat → Bool)
    {st st' : ShareState R} (h : EqExceptBatches st st') (res : ScanRes R) :
    EqExceptBatches (foldResult env st res)
      (foldResult { env with sendOk := g } st' res) := by
  obtain ⟨h1, h2, h3, h4, h5, h6, h7, h8, h9⟩ := h
  obtain ⟨d1, d2⟩ := drainGo_indep env.sendOk g env.batch_size
    (st.current_batch ++ res.file_records).length
    (st.current_batch ++ res.file_records)
    st.total_batches_sent st'.total_batches_sent st.sends
  refine ⟨?_, ?_, ?_, ?_, ?_, ?_, ?_, ?_, ?_⟩
  · show st.total_files_processed + res.files_processed
        = st'.total_files_processed + res.files_processed
    rw [h1]
  · show st.total_bytes_processed + res.bytes_processed
        = st'.total_bytes_processed + res.bytes_processed
    rw [h2]
  · show st.all_errors ++ res.errors = st'.all_errors ++ res.errors
    rw [h3]
  · show (drainLoop env.sendOk env.batch_size
        (st.current_batch ++ res.file_records) st.total_batches_sent st.sends).1
      = (drainLoop g env.batch_size
        (st'.current_batch ++ res.file_records) st'.total_batches_sent st'.sends).1
    rw [← h4, ← h9]
    exact d1
  · show st.directories_to_process ++
        res.subdirectories.filter (fun s => s ∉ st.processed_directories)
      = st'.directories_to_process ++
        res.subdirectories.filter (fun s => s ∉ st'.processed_directories)
    rw [h5, h6]
  · exact h6
  · exact h7
  · exact h8
  · show (drainLoop env.sendOk env.batch_size
        (st.current_batch ++ res.file_records) st.total_batches_sent st.sends).2.2
      = (drainLoop g env.batch_size
        (st'.current_batch ++ res.file_records) st'.total_batches_sent st'.sends).2.2
    rw [← h4, ← h9]
    exact d2

theorem foldl_foldResult_indep {R : Type} (env : ShareEnv R) (g : Nat → Bool) :
    ∀ (results : List (ScanRes R)) {st st' : ShareState R},
      EqExceptBatches st st' →
      EqExceptBatches (results.foldl (foldResult env) st)
        (results.foldl (foldResult { env with sendOk := g }) st') := by
  intro results
  induction results with
  | nil => intro st st' h; exact h
  | cons r rs ih =>
      intro st st' h
      rw [List.foldl_cons, List.foldl_cons]
      exact ih (foldResult_indep env g h r)

theorem waveStep_indep {R : Type} (env : ShareEnv R) (g : Nat → Bool)
    {st st' : ShareState R} (h : EqExceptBatches st st') :
    EqExceptBatches (waveStep env st) (waveStep { env with sendOk := g } st') := by
  obtain ⟨h1, h2, h3, h4, h5, h6, h7, h8, h9⟩ := h
  unfold waveStep
  rw [← h5, ← h6, ← h7, ← h8]
  apply foldl_foldResult_indep
  exact ⟨h1, h2, h3, h4, rfl, rfl, rfl, rfl, h9⟩

theorem runWaves_indep {R : Type} (env : ShareEnv R) (g : Nat → Bool) :
    ∀ (fuel : Nat) {st st' : ShareState R}, EqExceptBatches st st' →
      EqExceptBatches (runWaves env fuel st)
        (runWaves { env with sendOk := g } fuel st') := by
  intro fuel
  induction fuel with
  | zero => intro st st' h; exact h
  | succ fuel ih =>
      intro st st' h
      by_cases hfr : st.directories_to_process = []
      · rw [runWaves, if_pos hfr, runWaves, if_pos (h.2.2.2.2.1 ▸ hfr)]
        exact h
      · rw [runWaves, if_neg hfr, runWaves, if_neg (h.2.2.2.2.1 ▸ hfr)]
        exact ih (waveStep_indep env g h)

theorem finalFlush_indep {R : Type} (env : ShareEnv R) (g : Nat → Bool)
    {st st' : ShareState R} (h : EqExceptBatches st st') :
    (finalFlush env st).sends = (finalFlush { env with sendOk := g } st').sends ∧
    (finalFlush env st).all_errors
      = (finalFlush { env with sendOk := g } st').all_errors := by
  obtain ⟨h1, h2, h3, h4, h5, h6, h7, h8, h9⟩ := h
  unfold finalFlush
  rw [← h4, ← h9]
  by_cases hc : st.current_batch.isEmpty
  · rw [if_pos hc, if_pos hc]
    exact ⟨h9, h3⟩
  · rw [if_neg hc, if_neg hc]
    exact ⟨rfl, h3⟩

/-- An environment delivering one short run whose every batch send
fails: one directory, three records, batch size 2 (one in-loop send and
one final flush, both rejected by the sink). -/
def c4EnvFail : ShareEnv Nat :=
  { scan := fun p => if p = [] then ⟨[], [1, 2, 3], 3, 0, []⟩ else ⟨[], [], 0, 0, []⟩
    sendOk := fun _ => false
    batch_size := 2 }

/-- C4: a failed batch send is indeed never retried or re-queued — the
send trace, pending records, traversal state and error list of a run are
identical whatever the delivery outcomes are — but, contrary to the
claim, the failure is *not* reflected in the run's error counters: in
the concrete failing run both deliveries are rejected, each batch was
handed over exactly once, and the final report still shows
`error_count = 0` (and `batches_sent = 0`), silently losing all records. -/
theorem c4_delivery_failure_silent :
    (∀ (R : Type) (env : ShareEnv R) (g : Nat → Bool) (fuel clock : Nat),
      (orchestrator_file_share env fuel clock).2.sends
          = (orchestrator_file_share { env with sendOk := g } fuel clock).2.sends ∧
      (orchestrator_file_share env fuel clock).1.errors
          = (orchestrator_file_share { env with sendOk := g } fuel clock).1.errors ∧
      (orchestrator_file_share env fuel clock).1.error_count
          = (orchestrator_file_share { env with sendOk := g } fuel clock).1.error_count) ∧
    (orchestrator_file_share c4EnvFail 1 0).2.sends = [[1, 2], [3]] ∧
    (orchestrator_file_share c4EnvFail 1 0).1.batches_sent = 0 ∧
    (orchestrator_file_share c4EnvFail 1 0).1.error_count = 0 := by
  refine ⟨?_, by decide, by decide, by decide⟩
  intro R env g fuel clock
  have h0 : EqExceptBatches (initShareState R) (initShareState R) :=
    ⟨rfl, rfl, rfl, rfl, rfl, rfl, rfl, rfl, rfl⟩
  have hrun := runWaves_indep env g fuel h0
  obtain ⟨hs, he⟩ := finalFlush_indep env g hrun
  refine ⟨hs, ?_, ?_⟩
  · show (finalFlush env (runWaves env fuel (initShareState R))).all_errors.take 100 = _
    rw [he]
    rfl
  · show (finalFlush env (runWaves env fuel (initShareState R))).all_errors.length = _
    rw [he]
    rfl

/-! #### C7: replay determinism and the wall-clock read -/

/-- C7: the decision state of a run over recorded activity results is a
pure function of those results — replaying with a different wall-clock
reading reproduces the frontier, visited set and counters exactly — but
the orchestrator reads the wall clock (`datetime.utcnow()`) while
building its result, so the reports of two replays differ whenever
their clock readings differ: the timestamp is re-read on replay, not
captured once and threaded through as data. -/
theorem c7_replay_determinism_and_clock_read (R : Type) (env : ShareEnv R)
    (fuel c₁ c₂ : Nat) :
    (orchestrator_file_share env fuel c₁).2
        = (orchestrator_file_share env fuel c₂).2 ∧
    (orchestrator_file_share env fuel c₁).1.completed_at = c₁ ∧
    (c₁ ≠ c₂ →
      (orchestrator_file_share env fuel c₁).1
        ≠ (orchestrator_file_share env fuel c₂).1) := by
  refine ⟨rfl, rfl, fun hne heq => hne ?_⟩
  exact congrArg ShareReport.completed_at heq

theorem c7_replay_determinism_and_clock_read_witness :
    (0 : Nat) ≠ 1 ∧
      (orchestrator_file_share c2EnvW 1 0).1
        ≠ (orchestrator_file_share c2EnvW 1 1).1 :=
  ⟨by decide,
    (c7_replay_determinism_and_clock_read Nat c2EnvW 1 0 1).2.2 (by decide)⟩

end AzureScanner
